import Mathlib

/-!
Verification of the doozip archive codec and validation layer.

The embedding follows the Go source:
* `internal/entities/entities.go` — `FileData`, `FileDetails`, `ArchiveInfo`
  with their `Validate` methods and `CalculateTotals`;
* `internal/repositories` (archive repository) — `GetArchiveInfo`,
  `processZipFiles`, `CreateZipArchive`, `addFileToZip`, `detectMimeType`.

External library behaviour the source relies on is modelled explicitly:
Go's `path/filepath.Clean` and `filepath.Ext` (Unix rules), the builtin
table behind `mime.TypeByExtension`, and the `archive/zip` reader/writer,
which is modelled as an injective encoding of the entry list with a magic
header and an end-of-central-directory trailer.  Bytes are modelled as
`List Nat`; Go `int64` values are `Int`, `uint` values are `Nat`.
-/

namespace Doozip

/-- The two-character component `..`, as the path cleaner sees it. -/
def dotdot : List Char := ['.', '.']

/-- Split a character list on `/` separators.  The result always has at
least one (possibly empty) group; groups never contain `/`. -/
def splitSlash : List Char → List (List Char)
  | [] => [[]]
  | c :: cs =>
    if c = '/' then [] :: splitSlash cs
    else
      match splitSlash cs with
      | [] => [[c]]
      | g :: gs => (c :: g) :: gs

/-- Join components with `/` separators; inverse of `splitSlash` on
slash-free, non-empty component lists. -/
def joinSlash : List (List Char) → List Char
  | [] => []
  | [g] => g
  | g :: gs => g ++ '/' :: joinSlash gs

/-- The component-stack pass of Go's lexical `filepath.Clean` (Unix).
Empty and `.` components are dropped; `..` pops a preceding ordinary
component, is dropped at the root, and accumulates at the front of an
unrooted path.  `acc` holds processed components most-recent first; the
result is in path order. -/
def cleanStack (rooted : Bool) : List (List Char) → List (List Char) → List (List Char)
  | acc, [] => acc.reverse
  | acc, c :: cs =>
    if c = [] ∨ c = ['.'] then cleanStack rooted acc cs
    else if c = dotdot then
      match acc with
      | p :: rest =>
        if p = dotdot then cleanStack rooted (dotdot :: p :: rest) cs
        else cleanStack rooted rest cs
      | [] =>
        if rooted then cleanStack rooted [] cs
        else cleanStack rooted [dotdot] cs
    else cleanStack rooted (c :: acc) cs

/-- Character-level model of Go `path/filepath.Clean` for `/`-separated
paths: the classic lexical algorithm via components. -/
def cleanChars (cs : List Char) : List Char :=
  if cs = [] then ['.']
  else if cs.head? = some '/' then '/' :: joinSlash (cleanStack true [] (splitSlash cs))
  else if cleanStack false [] (splitSlash cs) = [] then ['.']
  else joinSlash (cleanStack false [] (splitSlash cs))

/-- Go `path/filepath.Clean` (Unix separator). -/
def clean (s : String) : String := ⟨cleanChars s.data⟩

example : clean "" = "." := by decide

example : clean "/" = "/" := by decide

example : clean "a//b/./c/.." = "a/b" := by decide

example : clean "../../x" = "../../x" := by decide

example : clean "/../a/" = "/a" := by decide

example : clean "a/../.." = ".." := by decide

/-- An ordinary cleaned path component: non-empty, not `.`, not `..`,
slash-free. -/
def goodComp (c : List Char) : Prop := c ≠ [] ∧ c ≠ ['.'] ∧ c ≠ dotdot ∧ '/' ∉ c

/-- Shape of a cleaned component list: rooted paths hold only ordinary
components; unrooted paths are a run of `..` followed by ordinary
components. -/
def cleanParts : Bool → List (List Char) → Prop
  | true, parts => ∀ c ∈ parts, goodComp c
  | false, parts => ∃ k gs, parts = List.replicate k dotdot ++ gs ∧ ∀ c ∈ gs, goodComp c

theorem splitSlash_ne_nil (cs : List Char) : splitSlash cs ≠ [] := by
  induction cs with
  | nil => simp [splitSlash]
  | cons c cs ih =>
    simp only [splitSlash]
    split
    · simp
    · cases h : splitSlash cs with
      | nil => exact absurd h ih
      | cons g gs => simp

theorem splitSlash_no_slash (cs : List Char) : ∀ g ∈ splitSlash cs, '/' ∉ g := by
  induction cs with
  | nil => intro g hg; simp [splitSlash] at hg; simp [hg]
  | cons c cs ih =>
    intro g hg
    simp only [splitSlash] at hg
    split at hg
    · rcases List.mem_cons.mp hg with h | h
      · simp [h]
      · exact ih g h
    · rename_i hc
      cases h : splitSlash cs with
      | nil => exact absurd h (splitSlash_ne_nil cs)
      | cons g0 gs =>
        rw [h] at hg
        rcases List.mem_cons.mp hg with h1 | h1
        · subst h1
          intro hmem
          rcases List.mem_cons.mp hmem with h2 | h2
          · exact hc h2.symm
          · exact ih g0 (h ▸ List.mem_cons_self g0 gs) h2
        · exact ih g (h ▸ List.mem_cons_of_mem g0 h1)

theorem splitSlash_of_no_slash (g : List Char) (hg : '/' ∉ g) : splitSlash g = [g] := by
  induction g with
  | nil => rfl
  | cons c cs ih =>
    have hc : c ≠ '/' := fun h => hg (h ▸ List.mem_cons_self c cs)
    have hcs : '/' ∉ cs := fun h => hg (List.mem_cons_of_mem c h)
    simp only [splitSlash, if_neg (fun h => hc h), ih hcs]

theorem splitSlash_append_slash (g rest : List Char) (hg : '/' ∉ g) :
    splitSlash (g ++ '/' :: rest) = g :: splitSlash rest := by
  induction g with
  | nil => simp [splitSlash]
  | cons c cs ih =>
    have hc : c ≠ '/' := fun h => hg (h ▸ List.mem_cons_self c cs)
    have hcs : '/' ∉ cs := fun h => hg (List.mem_cons_of_mem c h)
    simp only [List.cons_append, splitSlash, if_neg (fun h => hc h), List.append_eq, ih hcs]

theorem splitSlash_joinSlash (parts : List (List Char)) (hne : parts ≠ [])
    (hns : ∀ g ∈ parts, '/' ∉ g) : splitSlash (joinSlash parts) = parts := by
  induction parts with
  | nil => exact absurd rfl hne
  | cons g gs ih =>
    cases gs with
    | nil =>
      simp only [joinSlash]
      exact splitSlash_of_no_slash g (hns g (List.mem_cons_self g []))
    | cons g1 gs1 =>
      have h1 : joinSlash (g :: g1 :: gs1) = g ++ '/' :: joinSlash (g1 :: gs1) := rfl
      rw [h1, splitSlash_append_slash g _ (hns g (List.mem_cons_self g _)),
        ih (by simp) (fun x hx => hns x (List.mem_cons_of_mem g hx))]

theorem cleanStack_nil (rooted : Bool) (acc : List (List Char)) :
    cleanStack rooted acc [] = acc.reverse := rfl

theorem cleanStack_skip (rooted : Bool) (acc : List (List Char)) (c : List Char)
    (cs : List (List Char)) (h : c = [] ∨ c = ['.']) :
    cleanStack rooted acc (c :: cs) = cleanStack rooted acc cs := by
  simp only [cleanStack, if_pos h]

theorem cleanStack_push (rooted : Bool) (acc : List (List Char)) (c : List Char)
    (cs : List (List Char)) (h1 : ¬(c = [] ∨ c = ['.'])) (h2 : c ≠ dotdot) :
    cleanStack rooted acc (c :: cs) = cleanStack rooted (c :: acc) cs := by
  simp only [cleanStack, if_neg h1, if_neg h2]

theorem cleanStack_dd_nil (rooted : Bool) (cs : List (List Char)) :
    cleanStack rooted [] (dotdot :: cs)
      = cleanStack rooted (if rooted then [] else [dotdot]) cs := by
  simp only [cleanStack, if_neg (by decide : ¬(dotdot = [] ∨ dotdot = ['.'])), if_pos rfl]
  cases rooted <;> simp

theorem cleanStack_dd_pop (rooted : Bool) (p : List Char) (rest : List (List Char))
    (cs : List (List Char)) (h : p ≠ dotdot) :
    cleanStack rooted (p :: rest) (dotdot :: cs) = cleanStack rooted rest cs := by
  simp only [cleanStack, if_neg (by decide : ¬(dotdot = [] ∨ dotdot = ['.'])), if_pos rfl,
    if_neg h]
  simp

theorem cleanStack_dd_dd (rooted : Bool) (rest : List (List Char)) (cs : List (List Char)) :
    cleanStack rooted (dotdot :: rest) (dotdot :: cs)
      = cleanStack rooted (dotdot :: dotdot :: rest) cs := by
  simp only [cleanStack, if_neg (by decide : ¬(dotdot = [] ∨ dotdot = ['.'])), if_pos rfl]
  simp

theorem cleanStack_all_good (rooted : Bool) (cs : List (List Char)) :
    ∀ acc, (∀ c ∈ cs, goodComp c) → cleanStack rooted acc cs = acc.reverse ++ cs := by
  induction cs with
  | nil => intro acc _; simp [cleanStack_nil]
  | cons c cs ih =>
    intro acc h
    have hc : goodComp c := h c (List.mem_cons_self c cs)
    obtain ⟨h1, h2, h3, _⟩ := hc
    rw [cleanStack_push rooted acc c cs (by simp [h1, h2]) h3,
      ih (c :: acc) (fun x hx => h x (List.mem_cons_of_mem c hx))]
    simp

theorem cleanStack_dotdots (goods : List (List Char)) (hg : ∀ c ∈ goods, goodComp c) :
    ∀ k j, cleanStack false (List.replicate j dotdot) (List.replicate k dotdot ++ goods)
      = List.replicate (j + k) dotdot ++ goods := by
  intro k
  induction k with
  | zero =>
    intro j
    simp only [List.replicate, List.nil_append, Nat.add_zero]
    rw [cleanStack_all_good false goods _ hg, List.reverse_replicate]
  | succ k ih =>
    intro j
    have hsplit : List.replicate (k + 1) dotdot ++ goods
        = dotdot :: (List.replicate k dotdot ++ goods) := by
      simp [List.replicate_succ]
    rw [hsplit]
    cases j with
    | zero =>
      rw [List.replicate_zero, cleanStack_dd_nil false]
      have hify : (if (false : Bool) then ([] : List (List Char)) else [dotdot]) = [dotdot] := rfl
      rw [hify, show [dotdot] = List.replicate 1 dotdot from rfl, ih 1,
        show 0 + (k + 1) = 1 + k by omega]
    | succ j =>
      have hacc : List.replicate (j + 1) dotdot = dotdot :: List.replicate j dotdot := by
        simp [List.replicate_succ]
      rw [hacc, cleanStack_dd_dd false,
        show dotdot :: dotdot :: List.replicate j dotdot = List.replicate (j + 2) dotdot by
          simp [List.replicate_succ], ih (j + 2),
        show j + 1 + (k + 1) = j + 2 + k by omega]

theorem cleanStack_dd_nil_true (cs : List (List Char)) :
    cleanStack true [] (dotdot :: cs) = cleanStack true [] cs := by
  rw [cleanStack_dd_nil]
  simp

theorem cleanStack_dd_nil_false (cs : List (List Char)) :
    cleanStack false [] (dotdot :: cs) = cleanStack false [dotdot] cs := by
  rw [cleanStack_dd_nil]
  simp

/-- Invariant on the processing stack: a rooted stack holds only ordinary
components; an unrooted stack is ordinary components (most recent first)
sitting on top of a run of `..`. -/
def accInv : Bool → List (List Char) → Prop
  | true, acc => ∀ c ∈ acc, goodComp c
  | false, acc => ∃ gs k, acc = gs ++ List.replicate k dotdot ∧ ∀ c ∈ gs, goodComp c

theorem cleanStack_inv (rooted : Bool) (cs : List (List Char)) :
    ∀ acc, (∀ g ∈ cs, '/' ∉ g) → accInv rooted acc →
      cleanParts rooted (cleanStack rooted acc cs) := by
  induction cs with
  | nil =>
    intro acc _ hacc
    rw [cleanStack_nil]
    cases rooted with
    | true =>
      intro c hc
      exact hacc c (List.mem_reverse.mp hc)
    | false =>
      obtain ⟨gs, k, heq, hgs⟩ := hacc
      refine ⟨k, gs.reverse, ?_, ?_⟩
      · rw [heq, List.reverse_append, List.reverse_replicate]
      · intro c hc
        exact hgs c (List.mem_reverse.mp hc)
  | cons c cs ih =>
    intro acc hns hacc
    by_cases h1 : c = [] ∨ c = ['.']
    · rw [cleanStack_skip rooted acc c cs h1]
      exact ih acc (fun g hg => hns g (List.mem_cons_of_mem c hg)) hacc
    · by_cases h2 : c = dotdot
      · subst h2
        cases acc with
        | nil =>
          cases rooted with
          | true =>
            rw [cleanStack_dd_nil_true]
            exact ih [] (fun g hg => hns g (List.mem_cons_of_mem _ hg))
              (fun c hc => absurd hc (List.not_mem_nil c))
          | false =>
            rw [cleanStack_dd_nil_false]
            exact ih [dotdot] (fun g hg => hns g (List.mem_cons_of_mem _ hg))
              ⟨[], 1, rfl, fun c hc => absurd hc (List.not_mem_nil c)⟩
        | cons p rest =>
          by_cases hp : p = dotdot
          · subst hp
            rw [cleanStack_dd_dd rooted]
            cases rooted with
            | true =>
              exact absurd rfl (hacc dotdot (List.mem_cons_self _ _)).2.2.1
            | false =>
              obtain ⟨gs, k, heq, hgs⟩ := hacc
              cases gs with
              | cons g gs' =>
                have hg : g = dotdot := (List.cons.injEq _ _ _ _ ▸ heq).1.symm ▸ rfl
                exact absurd (by
                  have : dotdot = g := by
                    have := congrArg (List.head? ·) heq
                    simpa using this
                  exact this.symm) (hgs g (List.mem_cons_self g gs')).2.2.1
              | nil =>
                simp only [List.nil_append] at heq
                refine ih (dotdot :: dotdot :: rest)
                  (fun g hg => hns g (List.mem_cons_of_mem _ hg)) ⟨[], k + 1, ?_, ?_⟩
                · rw [List.nil_append, List.replicate_succ, ← heq]
                · intro c hc
                  exact absurd hc (List.not_mem_nil c)
          · rw [cleanStack_dd_pop rooted p rest cs hp]
            refine ih rest (fun g hg => hns g (List.mem_cons_of_mem _ hg)) ?_
            cases rooted with
            | true =>
              exact fun c hc => hacc c (List.mem_cons_of_mem p hc)
            | false =>
              obtain ⟨gs, k, heq, hgs⟩ := hacc
              cases gs with
              | nil =>
                simp only [List.nil_append] at heq
                cases k with
                | zero => simp at heq
                | succ k =>
                  rw [List.replicate_succ] at heq
                  exact absurd (List.cons.injEq _ _ _ _ ▸ heq).1 hp
              | cons g gs' =>
                rw [List.cons_append] at heq
                obtain ⟨hpg, hrest⟩ := List.cons.injEq _ _ _ _ ▸ heq
                exact ⟨gs', k, hrest, fun c hc => hgs c (List.mem_cons_of_mem g hc)⟩
      · rw [cleanStack_push rooted acc c cs h1 h2]
        have hcgood : goodComp c :=
          ⟨fun h => h1 (Or.inl h), fun h => h1 (Or.inr h), h2, hns c (List.mem_cons_self c cs)⟩
        refine ih (c :: acc) (fun g hg => hns g (List.mem_cons_of_mem _ hg)) ?_
        cases rooted with
        | true =>
          intro x hx
          rcases List.mem_cons.mp hx with h | h
          · exact h ▸ hcgood
          · exact hacc x h
        | false =>
          obtain ⟨gs, k, heq, hgs⟩ := hacc
          refine ⟨c :: gs, k, by rw [heq, List.cons_append], ?_⟩
          intro x hx
          rcases List.mem_cons.mp hx with h | h
          · exact h ▸ hcgood
          · exact hgs x h

theorem cleanParts_cleanStack_splitSlash (rooted : Bool) (cs : List Char) :
    cleanParts rooted (cleanStack rooted [] (splitSlash cs)) := by
  refine cleanStack_inv rooted (splitSlash cs) [] (splitSlash_no_slash cs) ?_
  cases rooted with
  | true => exact fun c hc => absurd hc (List.not_mem_nil c)
  | false => exact ⟨[], 0, rfl, fun c hc => absurd hc (List.not_mem_nil c)⟩

theorem cleanParts_mem (rooted : Bool) (parts : List (List Char))
    (h : cleanParts rooted parts) : ∀ c ∈ parts, c ≠ [] ∧ '/' ∉ c := by
  cases rooted with
  | true => exact fun c hc => ⟨(h c hc).1, (h c hc).2.2.2⟩
  | false =>
    obtain ⟨k, gs, heq, hgs⟩ := h
    intro c hc
    rw [heq] at hc
    rcases List.mem_append.mp hc with h | h
    · have : c = dotdot := List.eq_of_mem_replicate h
      subst this
      exact ⟨by decide, by decide⟩
    · exact ⟨(hgs c h).1, (hgs c h).2.2.2⟩

theorem joinSlash_cons (p : List Char) (rest : List (List Char)) :
    ∃ t, joinSlash (p :: rest) = p ++ t := by
  cases rest with
  | nil => exact ⟨[], by simp [joinSlash]⟩
  | cons r rs => exact ⟨'/' :: joinSlash (r :: rs), rfl⟩

theorem joinSlash_ne_nil_of (parts : List (List Char))
    (h : ∀ c ∈ parts, c ≠ []) (hne : parts ≠ []) : joinSlash parts ≠ [] := by
  cases parts with
  | nil => exact absurd rfl hne
  | cons p rest =>
    obtain ⟨t, ht⟩ := joinSlash_cons p rest
    rw [ht]
    have hp := h p (List.mem_cons_self p rest)
    cases p with
    | nil => exact absurd rfl hp
    | cons a as => simp

theorem joinSlash_head_ne_slash (parts : List (List Char))
    (h : ∀ c ∈ parts, c ≠ [] ∧ '/' ∉ c) (hne : parts ≠ []) :
    ¬(joinSlash parts).head? = some '/' := by
  cases parts with
  | nil => exact absurd rfl hne
  | cons p rest =>
    obtain ⟨t, ht⟩ := joinSlash_cons p rest
    rw [ht]
    obtain ⟨hp1, hp2⟩ := h p (List.mem_cons_self p rest)
    cases p with
    | nil => exact absurd rfl hp1
    | cons a as =>
      simp only [List.cons_append, List.head?_cons, Option.some.injEq]
      exact fun hq => hp2 (hq ▸ List.mem_cons_self a as)

theorem cleanStack_id (rooted : Bool) (parts : List (List Char))
    (h : cleanParts rooted parts) : cleanStack rooted [] parts = parts := by
  cases rooted with
  | true =>
    rw [cleanStack_all_good true parts [] h]
    simp
  | false =>
    obtain ⟨k, gs, heq, hgs⟩ := h
    rw [heq]
    have hd := cleanStack_dotdots gs hgs k 0
    rw [List.replicate_zero, Nat.zero_add] at hd
    exact hd

theorem cleanChars_ne_nil (cs : List Char) : cleanChars cs ≠ [] := by
  by_cases h0 : cs = []
  · subst h0
    decide
  · by_cases hr : cs.head? = some '/'
    · have h : cleanChars cs = '/' :: joinSlash (cleanStack true [] (splitSlash cs)) := by
        simp only [cleanChars]
        rw [if_neg h0, if_pos hr]
      rw [h]
      simp
    · by_cases hpe : cleanStack false [] (splitSlash cs) = []
      · have h : cleanChars cs = ['.'] := by
          simp only [cleanChars]
          rw [if_neg h0, if_neg hr, if_pos hpe]
        rw [h]
        simp
      · have hcp := cleanParts_cleanStack_splitSlash false cs
        have hmem := cleanParts_mem false _ hcp
        have h : cleanChars cs = joinSlash (cleanStack false [] (splitSlash cs)) := by
          simp only [cleanChars]
          rw [if_neg h0, if_neg hr, if_neg hpe]
        rw [h]
        exact joinSlash_ne_nil_of _ (fun c hc => (hmem c hc).1) hpe

theorem cleanChars_idem (cs : List Char) : cleanChars (cleanChars cs) = cleanChars cs := by
  by_cases h0 : cs = []
  · subst h0
    decide
  · by_cases hr : cs.head? = some '/'
    · have hout : cleanChars cs = '/' :: joinSlash (cleanStack true [] (splitSlash cs)) := by
        simp only [cleanChars]
        rw [if_neg h0, if_pos hr]
      have hcp : cleanParts true (cleanStack true [] (splitSlash cs)) :=
        cleanParts_cleanStack_splitSlash true cs
      rw [hout]
      by_cases hpe : cleanStack true [] (splitSlash cs) = []
      · rw [hpe]
        decide
      · have hns : ∀ g ∈ cleanStack true [] (splitSlash cs), '/' ∉ g :=
          fun g hg => ((cleanParts_mem true _ hcp) g hg).2
        have hsplit : splitSlash ('/' :: joinSlash (cleanStack true [] (splitSlash cs)))
            = [] :: cleanStack true [] (splitSlash cs) := by
          have hstep : splitSlash ('/' :: joinSlash (cleanStack true [] (splitSlash cs)))
              = [] :: splitSlash (joinSlash (cleanStack true [] (splitSlash cs))) := by
            simp [splitSlash]
          rw [hstep, splitSlash_joinSlash _ hpe hns]
        have hgoal : cleanChars ('/' :: joinSlash (cleanStack true [] (splitSlash cs)))
            = '/' :: joinSlash (cleanStack true []
                (splitSlash ('/' :: joinSlash (cleanStack true [] (splitSlash cs))))) := by
          simp only [cleanChars]
          rw [if_neg (by simp), if_pos (by simp)]
        rw [hgoal, hsplit, cleanStack_skip true [] [] _ (Or.inl rfl), cleanStack_id true _ hcp]
    · by_cases hpe : cleanStack false [] (splitSlash cs) = []
      · have hout : cleanChars cs = ['.'] := by
          simp only [cleanChars]
          rw [if_neg h0, if_neg hr, if_pos hpe]
        rw [hout]
        decide
      · have hout : cleanChars cs = joinSlash (cleanStack false [] (splitSlash cs)) := by
          simp only [cleanChars]
          rw [if_neg h0, if_neg hr, if_neg hpe]
        have hcp : cleanParts false (cleanStack false [] (splitSlash cs)) :=
          cleanParts_cleanStack_splitSlash false cs
        have hmem := cleanParts_mem false _ hcp
        have hjn : joinSlash (cleanStack false [] (splitSlash cs)) ≠ [] :=
          joinSlash_ne_nil_of _ (fun c hc => (hmem c hc).1) hpe
        have hjh : ¬(joinSlash (cleanStack false [] (splitSlash cs))).head? = some '/' :=
          joinSlash_head_ne_slash _ hmem hpe
        rw [hout]
        simp only [cleanChars]
        rw [if_neg hjn, if_neg hjh,
          splitSlash_joinSlash _ hpe (fun g hg => (hmem g hg).2), cleanStack_id false _ hcp,
          if_neg hpe]

theorem clean_idem (s : String) : clean (clean s) = clean s :=
  congrArg String.mk (cleanChars_idem s.data)

theorem clean_ne_empty (s : String) : clean s ≠ "" := by
  intro h
  exact cleanChars_ne_nil s.data (congrArg String.data h)

/-- Scan of a reversed path for Go `filepath.Ext`: walk from the end,
stop at a separator, return from the final dot (inclusive). -/
def extLoop : List Char → List Char → List Char
  | [], _ => []
  | c :: cs, acc =>
    if c = '/' then []
    else if c = '.' then '.' :: acc
    else extLoop cs (c :: acc)

/-- Go `path/filepath.Ext`: the suffix beginning at the final dot in the
final slash-separated element; empty when there is no dot. -/
def fpExt (s : String) : String := ⟨extLoop s.data.reverse []⟩

example : fpExt "report.pdf" = ".pdf" := by decide

example : fpExt "x.unknownext" = ".unknownext" := by decide

example : fpExt "noext" = "" := by decide

example : fpExt "dir.d/noext" = "" := by decide

/-- ASCII lower-casing of one character, as Go's `mime` package applies
to extensions before the table lookup. -/
def asciiLower (c : Char) : Char :=
  if 'A' ≤ c ∧ c ≤ 'Z' then Char.ofNat (c.toNat + 32) else c

/-- ASCII lower-casing of an extension string. -/
def lowerExt (s : String) : String := ⟨s.data.map asciiLower⟩

/-- The builtin extension table of Go's `mime` package
(`builtinTypesLower`), which backs `mime.TypeByExtension`. -/
def mimeTable : List (String × String) :=
  [(".avif", "image/avif"),
   (".css", "text/css; charset=utf-8"),
   (".gif", "image/gif"),
   (".htm", "text/html; charset=utf-8"),
   (".html", "text/html; charset=utf-8"),
   (".jpeg", "image/jpeg"),
   (".jpg", "image/jpeg"),
   (".js", "text/javascript; charset=utf-8"),
   (".json", "application/json"),
   (".mjs", "text/javascript; charset=utf-8"),
   (".pdf", "application/pdf"),
   (".png", "image/png"),
   (".svg", "image/svg+xml"),
   (".wasm", "application/wasm"),
   (".webp", "image/webp"),
   (".xml", "text/xml; charset=utf-8")]

/-- Go `mime.TypeByExtension` over the builtin table: exact lookup, then
ASCII-lower-cased lookup; empty string when the extension is unknown. -/
def typeByExtension (ext : String) : String :=
  match mimeTable.lookup ext with
  | some v => v
  | none =>
    match mimeTable.lookup (lowerExt ext) with
    | some v => v
    | none => ""

example : typeByExtension ".pdf" = "application/pdf" := by decide

example : typeByExtension ".PDF" = "application/pdf" := by decide

example : typeByExtension ".unknownext" = "" := by decide

/-- Error values of `internal/entities/entities.go` (the package-level
`errors.New` values; `fmt.Errorf` wrapping preserves the kind). -/
inductive EntitiesErr where
  | emptyFilename
  | invalidFileSize
  | emptyFiles
  | invalidMimeType
  | contentRequired
  | filepathRequired
deriving DecidableEq

/-- `entities.FileDetails`: one file inside an inspected archive.
`Size` is a Go `int64`. -/
structure FileDetails where
  FilePath : String
  Size : Int
  MimeType : String
deriving DecidableEq

/-- `FileDetails.Validate` from `entities.go`. -/
def FileDetails.Validate (f : FileDetails) : Option EntitiesErr :=
  if f.FilePath = "" then some .filepathRequired
  else if f.Size < 0 then some .invalidFileSize
  else if f.MimeType = "" then some .invalidMimeType
  else none

/-- `entities.ArchiveInfo`: the inspection aggregate.  `ArchiveSize` and
`TotalSize` are Go `int64`; `TotalFiles` is a Go `uint`. -/
structure ArchiveInfo where
  Filename : String
  ArchiveSize : Int
  TotalSize : Int
  TotalFiles : Nat
  Files : List FileDetails
deriving DecidableEq

/-- The per-file loop at the end of `ArchiveInfo.Validate`. -/
def validateDetails : List FileDetails → Option EntitiesErr
  | [] => none
  | f :: fs =>
    match f.Validate with
    | some e => some e
    | none => validateDetails fs

/-- `ArchiveInfo.Validate` from `entities.go`.  The `TotalFiles < 0`
branch mirrors the Go source, where it compares a `uint` against zero and
can never fire. -/
def ArchiveInfo.Validate (a : ArchiveInfo) : Option EntitiesErr :=
  if a.Filename = "" then some .emptyFilename
  else if a.ArchiveSize < 0 then some .invalidFileSize
  else if a.TotalSize < 0 then some .invalidFileSize
  else if a.TotalFiles < 0 then some .invalidFileSize
  else if a.Files.length = 0 then some .emptyFiles
  else validateDetails a.Files

/-- `ArchiveInfo.CalculateTotals` from `entities.go`: recompute
`TotalSize` and `TotalFiles` from the retained `Files`. -/
def ArchiveInfo.CalculateTotals (a : ArchiveInfo) : ArchiveInfo :=
  { a with
    TotalSize := (a.Files.map FileDetails.Size).sum
    TotalFiles := a.Files.length }

/-- `entities.FileData`: an in-memory file consumed by the builder.
Content bytes are modelled as `List Nat`. -/
structure FileData where
  Name : String
  Content : List Nat
  MIMEType : String
deriving DecidableEq

/-- `FileData.Validate` from `entities.go`.  The Go method mutates the
receiver's `MIMEType` in place when it derives a type from the name's
extension; the model returns the error (if any) together with the record
as it stands after the call. -/
def FileData.Validate (f : FileData) : Option EntitiesErr × FileData :=
  if f.Name = "" then (some .emptyFilename, f)
  else if f.Content.length = 0 then (some .contentRequired, f)
  else if f.MIMEType = "" then
    if typeByExtension (fpExt f.Name) ≠ "" then
      (none, { f with MIMEType := typeByExtension (fpExt f.Name) })
    else (some .invalidMimeType, f)
  else (none, f)

/-- One stored entry of a zip container: its stored name and its content
bytes.  In `archive/zip` an entry whose stored name ends in `/` is a
directory marker (`FileInfo().IsDir()`), and `FileInfo().Size()` is the
entry's uncompressed byte length. -/
structure ZipEntry where
  name : String
  content : List Nat
deriving DecidableEq

/-- Whether a stored name marks a directory entry, per `archive/zip`:
the name is non-empty and its last character is `/`. -/
def isDirName (s : String) : Bool := s.data.getLast? = some '/'

/-- Length-prefixed encoding of a string as container bytes. -/
def encName (s : String) : List Nat := s.data.length :: s.data.map Char.toNat

/-- Encoding of one entry: length-prefixed name, then length-prefixed
content. -/
def encEntry (e : ZipEntry) : List Nat :=
  encName e.name ++ e.content.length :: e.content

/-- Concatenated encoding of an entry list. -/
def encEntries : List ZipEntry → List Nat
  | [] => []
  | e :: es => encEntry e ++ encEntries es

/-- The end-of-central-directory trailer a finalized container ends with
(the `PK\x05\x06` record `zip.Writer.Close` writes). -/
def endOfCentralDir : List Nat := [80, 75, 5, 6]

/-- Model of the byte format `archive/zip` produces: a `PK` magic, the
entry count, the entry records, and the end-of-central-directory trailer.
The encoding is injective and `decodeZip` inverts it. -/
def encodeZip (es : List ZipEntry) : List Nat :=
  80 :: 75 :: es.length :: encEntries es ++ endOfCentralDir

/-- Decode a length-prefixed string; fails on truncated input. -/
def decName : List Nat → Option (String × List Nat)
  | [] => none
  | n :: rest =>
    if n ≤ rest.length then some (⟨(rest.take n).map Char.ofNat⟩, rest.drop n)
    else none

/-- Decode a length-prefixed content block; fails on truncated input. -/
def decContent : List Nat → Option (List Nat × List Nat)
  | [] => none
  | n :: rest =>
    if n ≤ rest.length then some (rest.take n, rest.drop n)
    else none

/-- Decode exactly `k` entry records. -/
def decEntries : Nat → List Nat → Option (List ZipEntry × List Nat)
  | 0, rest => some ([], rest)
  | k + 1, rest =>
    (decName rest).bind fun p =>
      (decContent p.2).bind fun q =>
        (decEntries k q.2).map fun w => (⟨p.1, q.1⟩ :: w.1, w.2)

/-- Model of `zip.NewReader`: parse container bytes into the stored entry
list, failing on anything that is not a well-formed container (bad magic,
truncated records, bad trailer). -/
def decodeZip : List Nat → Option (List ZipEntry)
  | a :: b :: n :: rest =>
    if a = 80 ∧ b = 75 then
      (decEntries n rest).bind fun p =>
        if p.2 = endOfCentralDir then some p.1 else none
    else none
  | _ => none

theorem decName_encName (s : String) (r : List Nat) :
    decName (encName s ++ r) = some (s, r) := by
  have hlen : (s.data.map Char.toNat).length = s.data.length := List.length_map _ _
  simp only [encName, List.cons_append, decName]
  rw [if_pos (by rw [List.length_append, hlen]; omega)]
  rw [List.take_append_of_le_length (by rw [hlen]), List.drop_append_of_le_length (by rw [hlen]),
    List.take_of_length_le (by rw [hlen]), List.drop_of_length_le (by rw [hlen])]
  simp only [List.nil_append, Option.some.injEq, Prod.mk.injEq]
  refine ⟨?_, trivial⟩
  show String.mk ((s.data.map Char.toNat).map Char.ofNat) = s
  rw [List.map_map]
  have h : (Char.ofNat ∘ Char.toNat) = id := by
    funext c
    exact Char.ofNat_toNat c
  rw [h, List.map_id]

theorem decContent_enc (l r : List Nat) :
    decContent (l.length :: (l ++ r)) = some (l, r) := by
  show (if l.length ≤ (l ++ r).length
    then some ((l ++ r).take l.length, (l ++ r).drop l.length) else none) = some (l, r)
  rw [if_pos (by rw [List.length_append]; omega)]
  rw [List.take_append_of_le_length (le_refl _), List.drop_append_of_le_length (le_refl _),
    List.take_of_length_le (le_refl _), List.drop_of_length_le (le_refl _)]
  simp

theorem decEntries_succ (k : Nat) (bs : List Nat) :
    decEntries (k + 1) bs = (decName bs).bind fun p =>
      (decContent p.2).bind fun q =>
        (decEntries k q.2).map fun w => (⟨p.1, q.1⟩ :: w.1, w.2) := rfl

theorem decEntries_encEntries (es : List ZipEntry) (r : List Nat) :
    decEntries es.length (encEntries es ++ r) = some (es, r) := by
  induction es generalizing r with
  | nil => rfl
  | cons e es ih =>
    have h1 : encEntries (e :: es) ++ r
        = encName e.name ++ (e.content.length :: (e.content ++ (encEntries es ++ r))) := by
      simp [encEntries, encEntry, List.append_assoc]
    rw [List.length_cons, h1, decEntries_succ, decName_encName, Option.some_bind,
      decContent_enc, Option.some_bind, ih r, Option.map_some']

theorem decodeZip_encodeZip (es : List ZipEntry) : decodeZip (encodeZip es) = some es := by
  show decodeZip (80 :: 75 :: es.length :: (encEntries es ++ endOfCentralDir)) = some es
  rw [decodeZip]
  rw [if_pos ⟨rfl, rfl⟩, decEntries_encEntries es endOfCentralDir, Option.some_bind,
    if_pos rfl]

theorem encodeZip_ne_nil (es : List ZipEntry) : encodeZip es ≠ [] := by
  simp [encodeZip]

/-- Failure modes of `GetArchiveInfo` (the archive repository):
`emptyFile` is `ErrEmptyFile`, `invalidZip` is `ErrInvalidZip`, and
`invalidArchiveInfo` wraps the `ArchiveInfo.Validate` failure. -/
inductive InspectErr where
  | emptyFile
  | invalidZip
  | invalidArchiveInfo (e : EntitiesErr)
deriving DecidableEq

/-- Failure modes of `CreateZipArchive`: `emptyFilesList` is
`ErrEmptyFilesList`, `invalidFile` wraps a record's validation failure
together with the record's filename, and `addFileFailed` names the record
whose write into the archive failed. -/
inductive BuildErr where
  | emptyFilesList
  | invalidFile (name : String) (e : EntitiesErr)
  | addFileFailed (name : String)
deriving DecidableEq

/-- `detectMimeType` from the archive repository:
`mime.TypeByExtension(filepath.Ext(filename))` with an
`application/octet-stream` fallback. -/
def detectMimeType (filename : String) : String :=
  if typeByExtension (fpExt filename) = "" then "application/octet-stream"
  else typeByExtension (fpExt filename)

/-- The `FileDetails` value that `processZipFiles` builds for one stored
entry: cleaned path, uncompressed size, detected mime type. -/
def entryDetails (e : ZipEntry) : FileDetails :=
  { FilePath := clean e.name
    Size := (e.content.length : Int)
    MimeType := detectMimeType e.name }

/-- `processZipFiles` from the archive repository: walk the stored
entries in order; directory markers are skipped, an entry failing
`FileDetails.Validate` is skipped with a warning, every other entry is
appended to `Files`.  The Go function's error result is always `nil`, so
the model is total. -/
def processZipFiles (entries : List ZipEntry) (info : ArchiveInfo) : ArchiveInfo :=
  match entries with
  | [] => info
  | e :: es =>
    if isDirName e.name then processZipFiles es info
    else if ((entryDetails e).Validate).isSome then processZipFiles es info
    else processZipFiles es { info with Files := info.Files ++ [entryDetails e] }

/-- The inventory value `GetArchiveInfo` builds once the container is
parsed: fresh `ArchiveInfo` with the caller's filename and the raw byte
length, populated by `processZipFiles`, totals recomputed. -/
def inspectInfo (content : List Nat) (filename : String) (entries : List ZipEntry) : ArchiveInfo :=
  (processZipFiles entries
    { Filename := filename
      ArchiveSize := (content.length : Int)
      TotalSize := 0
      TotalFiles := 0
      Files := [] }).CalculateTotals

/-- `GetArchiveInfo` from the archive repository, applied to the bytes
read from the uploaded file: reject empty input, parse the container,
walk the entries, recompute totals, validate the inventory. -/
def GetArchiveInfo (content : List Nat) (filename : String) : Except InspectErr ArchiveInfo :=
  if content.length = 0 then .error .emptyFile
  else
    match decodeZip content with
    | none => .error .invalidZip
    | some entries =>
      match (inspectInfo content filename entries).Validate with
      | some e => .error (.invalidArchiveInfo e)
      | none => .ok (inspectInfo content filename entries)

/-- `addFileToZip` from the archive repository.  `zip.Writer.Create` is
called on the cleaned name; per `archive/zip`, `Create`'s `writeHeader`
rejects a stored name longer than 65535 bytes (`errLongName`), and a
name ending in `/` creates a directory entry whose writer rejects a
non-empty write.  These are the failing paths when the underlying buffer
is a `bytes.Buffer` (whose own writes are infallible). -/
def addFileToZip (entries : List ZipEntry) (f : FileData) : Option (List ZipEntry) :=
  if (clean f.Name).utf8ByteSize > 65535 then none
  else if isDirName (clean f.Name) ∧ f.Content.length ≠ 0 then none
  else some (entries ++ [{ name := clean f.Name, content := f.Content }])

/-- The up-front validation loop of `CreateZipArchive`: validate each
record in order (mutating records in place, since Go passes
`[]*FileData`), aborting on the first failure with that record's name. -/
def validateLoop : List FileData → Except (String × EntitiesErr) (List FileData)
  | [] => .ok []
  | f :: fs =>
    match f.Validate with
    | (some e, _) => .error (f.Name, e)
    | (none, f') =>
      match validateLoop fs with
      | .error p => .error p
      | .ok fs' => .ok (f' :: fs')

/-- The write loop of `CreateZipArchive`: add each validated record to
the archive in order, aborting with the record's name on a write
failure. -/
def writeLoop : List FileData → List ZipEntry → Except String (List ZipEntry)
  | [], acc => .ok acc
  | f :: fs, acc =>
    match addFileToZip acc f with
    | none => .error f.Name
    | some acc' => writeLoop fs acc'

/-- `CreateZipArchive` from the archive repository: reject an empty list,
validate every record before writing anything, write the entries in
order, and return the finalized container bytes (the deferred
`writer.Close` writes the central directory into the returned buffer
before the caller observes it; a failing path returns no bytes). -/
def CreateZipArchive (files : List FileData) : Except BuildErr (List Nat) :=
  if files.length = 0 then .error .emptyFilesList
  else
    match validateLoop files with
    | .error (n, e) => .error (.invalidFile n e)
    | .ok files' =>
      match writeLoop files' [] with
      | .error n => .error (.addFileFailed n)
      | .ok entries => .ok (encodeZip entries)

/-- What the inspector's walk retains from one stored entry: nothing for
a directory marker or a validation-failing entry, otherwise its
`FileDetails`. -/
def keepEntry (e : ZipEntry) : Option FileDetails :=
  if isDirName e.name then none
  else if ((entryDetails e).Validate).isSome then none
  else some (entryDetails e)

theorem processZipFiles_eq (entries : List ZipEntry) :
    ∀ info, processZipFiles entries info
      = { info with Files := info.Files ++ entries.filterMap keepEntry } := by
  induction entries with
  | nil => intro info; simp [processZipFiles]
  | cons e es ih =>
    intro info
    by_cases h1 : isDirName e.name
    · rw [show processZipFiles (e :: es) info = processZipFiles es info by
        simp [processZipFiles, h1], ih info]
      simp [keepEntry, h1, List.filterMap_cons]
    · by_cases h2 : ((entryDetails e).Validate).isSome
      · rw [show processZipFiles (e :: es) info = processZipFiles es info by
          simp [processZipFiles, h1, h2], ih info]
        simp [keepEntry, h1, h2, List.filterMap_cons]
      · rw [show processZipFiles (e :: es) info
            = processZipFiles es { info with Files := info.Files ++ [entryDetails e] } by
          simp [processZipFiles, h1, h2], ih]
        simp [keepEntry, h1, h2, List.filterMap_cons]

theorem detectMimeType_ne_empty (s : String) : detectMimeType s ≠ "" := by
  unfold detectMimeType
  split
  · decide
  · assumption

theorem FileData.Validate_frame (f : FileData) :
    ((f.Validate).2.Name = f.Name) ∧ ((f.Validate).2.Content = f.Content) ∧
    ((f.Validate).2.MIMEType ≠ f.MIMEType →
      f.MIMEType = "" ∧ (f.Validate).1 = none ∧
      (f.Validate).2.MIMEType = typeByExtension (fpExt f.Name) ∧
      typeByExtension (fpExt f.Name) ≠ "") := by
  by_cases h1 : f.Name = ""
  · simp [FileData.Validate, h1]
  · by_cases h2 : f.Content.length = 0
    · simp [FileData.Validate, h1, h2]
    · by_cases h3 : f.MIMEType = ""
      · by_cases h4 : typeByExtension (fpExt f.Name) = ""
        · simp [FileData.Validate, h1, h2, h3, h4]
        · simp [FileData.Validate, h1, h2, h3, h4]
      · simp [FileData.Validate, h1, h2, h3]

theorem validateLoop_ok (files : List FileData)
    (h : ∀ f ∈ files, (f.Validate).1 = none) :
    validateLoop files = .ok (files.map fun f => (f.Validate).2) := by
  induction files with
  | nil => rfl
  | cons f fs ih =>
    have hf := h f (List.mem_cons_self f fs)
    cases hfv : f.Validate with
    | mk o f' =>
      rw [hfv] at hf
      simp only at hf
      subst hf
      simp only [validateLoop, hfv, ih (fun x hx => h x (List.mem_cons_of_mem f hx)),
        List.map_cons, hfv]

theorem validateLoop_first_error (files : List FileData) :
    ∀ (i : Nat) (hi : i < files.length) (e : EntitiesErr),
      ((files.get ⟨i, hi⟩).Validate).1 = some e →
      (∀ (j : Nat) (hj : j < files.length), j < i → ((files.get ⟨j, hj⟩).Validate).1 = none) →
      validateLoop files = .error ((files.get ⟨i, hi⟩).Name, e) := by
  induction files with
  | nil => intro i hi; exact absurd hi (by simp)
  | cons f fs ih =>
    intro i hi e hbad hfirst
    cases i with
    | zero =>
      simp only [List.get] at hbad ⊢
      cases hfv : f.Validate with
      | mk o f' =>
        rw [hfv] at hbad
        simp only at hbad
        subst hbad
        simp [validateLoop, hfv]
    | succ i' =>
      have h0 : (((f :: fs).get ⟨0, by simp⟩).Validate).1 = none :=
        hfirst 0 (by simp) (Nat.succ_pos i')
      simp only [List.get] at h0
      cases hfv : f.Validate with
      | mk o f' =>
        rw [hfv] at h0
        simp only at h0
        subst h0
        have hi' : i' < fs.length := by simpa using hi
        have hrec := ih i' hi' e (by simpa using hbad)
          (fun j hj hlt => by
            have := hfirst (j + 1) (by simpa using hj) (Nat.succ_lt_succ hlt)
            simpa using this)
        simp only [List.get]
        simp [validateLoop, hfv, hrec]

theorem writeLoop_map (fs : List FileData)
    (h : ∀ f ∈ fs, isDirName (clean f.Name) = false)
    (hshort : ∀ f ∈ fs, (clean f.Name).utf8ByteSize ≤ 65535) :
    ∀ acc, writeLoop (fs.map fun f => (f.Validate).2) acc
      = .ok (acc ++ fs.map fun f => { name := clean f.Name, content := f.Content : ZipEntry }) := by
  induction fs with
  | nil => intro acc; simp [writeLoop]
  | cons f fs ih =>
    intro acc
    obtain ⟨hname, hcontent, _⟩ := FileData.Validate_frame f
    have hf := h f (List.mem_cons_self f fs)
    have hs := hshort f (List.mem_cons_self f fs)
    have hadd : addFileToZip acc (f.Validate).2
        = some (acc ++ [{ name := clean f.Name, content := f.Content : ZipEntry }]) := by
      unfold addFileToZip
      rw [hname, hcontent, if_neg (by omega), if_neg (by simp [hf])]
    simp only [List.map_cons, writeLoop, hadd,
      ih (fun x hx => h x (List.mem_cons_of_mem f hx))
        (fun x hx => hshort x (List.mem_cons_of_mem f hx))]
    simp

theorem validateDetails_none (ds : List FileDetails)
    (h : ∀ d ∈ ds, d.Validate = none) : validateDetails ds = none := by
  induction ds with
  | nil => rfl
  | cons d ds ih =>
    simp only [validateDetails, h d (List.mem_cons_self d ds)]
    exact ih (fun x hx => h x (List.mem_cons_of_mem d hx))

theorem filterMap_keepEntry_eq_map (es : List ZipEntry)
    (h : ∀ e ∈ es, keepEntry e = some (entryDetails e)) :
    es.filterMap keepEntry = es.map entryDetails := by
  induction es with
  | nil => rfl
  | cons e es ih =>
    rw [List.filterMap_cons, h e (List.mem_cons_self e es), List.map_cons,
      ih (fun x hx => h x (List.mem_cons_of_mem e hx))]

theorem decodeZip_nil : decodeZip [] = none := rfl

theorem GetArchiveInfo_of_decode (content : List Nat) (fn : String) (entries : List ZipEntry)
    (hdec : decodeZip content = some entries) :
    GetArchiveInfo content fn
      = match (inspectInfo content fn entries).Validate with
        | some e => .error (.invalidArchiveInfo e)
        | none => .ok (inspectInfo content fn entries) := by
  have hne : content ≠ [] := by
    intro h
    rw [h, decodeZip_nil] at hdec
    exact Option.noConfusion hdec
  unfold GetArchiveInfo
  rw [if_neg (by simpa [List.length_eq_zero] using hne), hdec]

theorem inspectInfo_Filename (content : List Nat) (fn : String) (entries : List ZipEntry) :
    (inspectInfo content fn entries).Filename = fn := by
  unfold inspectInfo
  rw [processZipFiles_eq]
  rfl

theorem inspectInfo_ArchiveSize (content : List Nat) (fn : String) (entries : List ZipEntry) :
    (inspectInfo content fn entries).ArchiveSize = (content.length : Int) := by
  unfold inspectInfo
  rw [processZipFiles_eq]
  rfl

theorem inspectInfo_Files (content : List Nat) (fn : String) (entries : List ZipEntry) :
    (inspectInfo content fn entries).Files = entries.filterMap keepEntry := by
  unfold inspectInfo
  rw [processZipFiles_eq]
  rfl

theorem inspectInfo_TotalSize (content : List Nat) (fn : String) (entries : List ZipEntry) :
    (inspectInfo content fn entries).TotalSize
      = ((inspectInfo content fn entries).Files.map FileDetails.Size).sum := rfl

theorem inspectInfo_TotalFiles (content : List Nat) (fn : String) (entries : List ZipEntry) :
    (inspectInfo content fn entries).TotalFiles
      = (inspectInfo content fn entries).Files.length := rfl

theorem ArchiveInfo_Validate_none (a : ArchiveInfo)
    (h1 : a.Filename ≠ "") (h2 : ¬a.ArchiveSize < 0) (h3 : ¬a.TotalSize < 0)
    (h5 : a.Files.length ≠ 0) (h6 : validateDetails a.Files = none) :
    a.Validate = none := by
  unfold ArchiveInfo.Validate
  rw [if_neg h1, if_neg h2, if_neg h3, if_neg (Nat.not_lt_zero _), if_neg h5, h6]

theorem entryDetails_Validate_none (e : ZipEntry) : (entryDetails e).Validate = none := by
  simp only [entryDetails, FileDetails.Validate]
  rw [if_neg (clean_ne_empty e.name), if_neg (Int.not_lt.mpr (Int.natCast_nonneg _)),
    if_neg (detectMimeType_ne_empty e.name)]

theorem keepEntry_eq (e : ZipEntry) :
    keepEntry e = if isDirName e.name then none else some (entryDetails e) := by
  unfold keepEntry
  rw [entryDetails_Validate_none]
  simp

/-- C1 counterexample: the record `{Name := "/", Content := [1],
MIMEType := "application/pdf"}` passes `FileData.Validate`, yet
`CreateZipArchive` fails on it: `filepath.Clean("/") = "/"` names a
directory entry, and `zip.Writer` rejects writing content bytes to a
directory entry.  So it is not true that Build succeeds on every
non-empty list of validation-passing records.  (A second obstruction of
the same kind exists: `zip.Writer`'s `writeHeader` rejects stored names
longer than 65535 bytes with `errLongName`, so validation-passing
records with such names also fail the build; the amended claim excludes
both.) -/
theorem C1_counterexample :
    (FileData.Validate { Name := "/", Content := [1], MIMEType := "application/pdf" }).1
        = none ∧
    CreateZipArchive [{ Name := "/", Content := [1], MIMEType := "application/pdf" }]
      = .error (.addFileFailed "/") := ⟨rfl, rfl⟩

/-- C1 (amended): for every non-empty list of validation-passing records
whose cleaned names are not directory markers (do not end in `/`) and
are at most 65535 bytes long (`zip.Writer`'s `writeHeader` rejects
longer stored names with `errLongName`), Build succeeds, and Inspect on
the produced bytes with any non-empty filename succeeds with exactly one
descriptor per input record, in order, whose path is the record's
cleaned name and whose size is the record's content length. -/
theorem C1_round_trip (files : List FileData) (fn : String)
    (hne : files ≠ []) (hfn : fn ≠ "")
    (hvalid : ∀ f ∈ files, (f.Validate).1 = none)
    (hnotdir : ∀ f ∈ files, isDirName (clean f.Name) = false)
    (hshort : ∀ f ∈ files, (clean f.Name).utf8ByteSize ≤ 65535) :
    ∃ bs info, CreateZipArchive files = .ok bs ∧ GetArchiveInfo bs fn = .ok info ∧
      info.Files.length = files.length ∧
      info.Files.map (fun d => (d.FilePath, d.Size))
        = files.map (fun f => (clean f.Name, (f.Content.length : Int))) := by
  have hbuild : CreateZipArchive files
      = .ok (encodeZip (files.map fun f =>
          { name := clean f.Name, content := f.Content : ZipEntry })) := by
    have hlen : ¬files.length = 0 := by simpa [List.length_eq_zero] using hne
    simp only [CreateZipArchive, if_neg hlen, validateLoop_ok files hvalid,
      writeLoop_map files hnotdir hshort, List.nil_append]
  have hdec := decodeZip_encodeZip (files.map fun f =>
    { name := clean f.Name, content := f.Content : ZipEntry })
  have hkeep : ∀ e ∈ (files.map fun f =>
      { name := clean f.Name, content := f.Content : ZipEntry }),
      keepEntry e = some (entryDetails e) := by
    intro e he
    obtain ⟨f, hf, rfl⟩ := List.mem_map.mp he
    rw [keepEntry_eq, if_neg (by simp [hnotdir f hf])]
  have hfiles : (inspectInfo
      (encodeZip (files.map fun f => { name := clean f.Name, content := f.Content : ZipEntry }))
      fn (files.map fun f => { name := clean f.Name, content := f.Content : ZipEntry })).Files
      = (files.map fun f =>
          { name := clean f.Name, content := f.Content : ZipEntry }).map entryDetails := by
    rw [inspectInfo_Files, filterMap_keepEntry_eq_map _ hkeep]
  have hvalnone : (inspectInfo
      (encodeZip (files.map fun f => { name := clean f.Name, content := f.Content : ZipEntry }))
      fn (files.map fun f => { name := clean f.Name, content := f.Content : ZipEntry })).Validate
      = none := by
    apply ArchiveInfo_Validate_none
    · rw [inspectInfo_Filename]
      exact hfn
    · rw [inspectInfo_ArchiveSize]
      exact Int.not_lt.mpr (Int.natCast_nonneg _)
    · rw [inspectInfo_TotalSize]
      apply Int.not_lt.mpr
      apply List.sum_nonneg
      intro x hx
      rw [hfiles] at hx
      obtain ⟨d, hd, rfl⟩ := List.mem_map.mp hx
      obtain ⟨e, _, rfl⟩ := List.mem_map.mp hd
      exact Int.natCast_nonneg _
    · rw [hfiles]
      simpa [List.length_map, List.length_eq_zero] using hne
    · apply validateDetails_none
      intro d hd
      rw [hfiles] at hd
      obtain ⟨e, _, rfl⟩ := List.mem_map.mp hd
      exact entryDetails_Validate_none e
  refine ⟨encodeZip (files.map fun f => { name := clean f.Name, content := f.Content : ZipEntry }),
    inspectInfo
      (encodeZip (files.map fun f => { name := clean f.Name, content := f.Content : ZipEntry }))
      fn (files.map fun f => { name := clean f.Name, content := f.Content : ZipEntry }),
    hbuild, ?_, ?_, ?_⟩
  · rw [GetArchiveInfo_of_decode _ _ _ hdec, hvalnone]
  · rw [hfiles]
    simp [List.length_map]
  · rw [hfiles, List.map_map, List.map_map]
    congr 1
    funext f
    simp only [Function.comp_apply, entryDetails]
    rw [clean_idem]

/-- C1 witness: the amended round trip at a concrete one-record list. -/
theorem C1_witness :
    ∃ bs info,
      CreateZipArchive [{ Name := "a.pdf", Content := [1], MIMEType := "application/pdf" }]
        = .ok bs ∧
      GetArchiveInfo bs "x.zip" = .ok info ∧
      info.Files.length
        = ([{ Name := "a.pdf", Content := [1], MIMEType := "application/pdf" }]
            : List FileData).length ∧
      info.Files.map (fun d => (d.FilePath, d.Size))
        = ([{ Name := "a.pdf", Content := [1], MIMEType := "application/pdf" }]
            : List FileData).map (fun f => (clean f.Name, (f.Content.length : Int))) :=
  C1_round_trip _ _ (by simp) (by simp)
    (by
      intro f hf
      rw [List.mem_singleton] at hf
      subst hf
      rfl)
    (by
      intro f hf
      rw [List.mem_singleton] at hf
      subst hf
      rfl)
    (by
      intro f hf
      rw [List.mem_singleton] at hf
      subst hf
      decide)

/-- C2: when some record fails validation, `CreateZipArchive` returns the
failure of the first invalid record in input order, named by that
record's filename, and returns no container bytes (the result is an
error, not a buffer). -/
theorem C2_atomic_build (files : List FileData) (i : Nat) (hi : i < files.length)
    (e : EntitiesErr)
    (hbad : ((files.get ⟨i, hi⟩).Validate).1 = some e)
    (hfirst : ∀ (j : Nat) (hj : j < files.length), j < i →
      ((files.get ⟨j, hj⟩).Validate).1 = none) :
    CreateZipArchive files = .error (.invalidFile (files.get ⟨i, hi⟩).Name e) ∧
    ∀ bs, CreateZipArchive files ≠ .ok bs := by
  have hlen : ¬files.length = 0 := by
    intro h
    rw [h] at hi
    exact Nat.not_lt_zero i hi
  have hvl := validateLoop_first_error files i hi e hbad hfirst
  have hmain : CreateZipArchive files = .error (.invalidFile (files.get ⟨i, hi⟩).Name e) := by
    simp only [CreateZipArchive, if_neg hlen, hvl]
  exact ⟨hmain, fun bs hok => by rw [hmain] at hok; exact Except.noConfusion hok⟩

/-- C2 witness: the spec's `[valid, invalid, valid]` shape at concrete
records; the middle record has an empty name. -/
theorem C2_witness :
    CreateZipArchive
      [{ Name := "a.pdf", Content := [1], MIMEType := "application/pdf" },
       { Name := "", Content := [2], MIMEType := "application/pdf" },
       { Name := "b.png", Content := [3], MIMEType := "image/png" }]
      = .error (.invalidFile "" .emptyFilename) ∧
    ∀ bs, CreateZipArchive
      [{ Name := "a.pdf", Content := [1], MIMEType := "application/pdf" },
       { Name := "", Content := [2], MIMEType := "application/pdf" },
       { Name := "b.png", Content := [3], MIMEType := "image/png" }] ≠ .ok bs :=
  C2_atomic_build _ 1 (by decide) .emptyFilename rfl
    (fun j hj hlt => by
      have hj0 : j = 0 := by omega
      subst hj0
      rfl)

/-- C3: every successful inspection returns an inventory whose
`TotalSize` is exactly the sum of its entries' sizes and whose
`TotalFiles` is exactly the number of entries, because both are
recomputed by `CalculateTotals` from the retained entries before
`ArchiveInfo.Validate` runs. -/
theorem C3_totals (content : List Nat) (fn : String) (info : ArchiveInfo)
    (h : GetArchiveInfo content fn = .ok info) :
    info.TotalSize = (info.Files.map FileDetails.Size).sum ∧
    info.TotalFiles = info.Files.length := by
  by_cases hc : content.length = 0
  · unfold GetArchiveInfo at h
    rw [if_pos hc] at h
    exact Except.noConfusion h
  · cases hdec : decodeZip content with
    | none =>
      unfold GetArchiveInfo at h
      rw [if_neg hc, hdec] at h
      exact Except.noConfusion h
    | some entries =>
      rw [GetArchiveInfo_of_decode content fn entries hdec] at h
      cases hv : (inspectInfo content fn entries).Validate with
      | some e =>
        rw [hv] at h
        exact Except.noConfusion h
      | none =>
        rw [hv] at h
        simp only [Except.ok.injEq] at h
        subst h
        exact ⟨inspectInfo_TotalSize content fn entries, inspectInfo_TotalFiles content fn entries⟩

/-- C3 witness: the totals invariant at a concrete successful
inspection. -/
theorem C3_witness :
    ({ Filename := "x.zip", ArchiveSize := 16, TotalSize := 2, TotalFiles := 1,
       Files := [{ FilePath := "a.pdf", Size := 2, MimeType := "application/pdf" }]
       : ArchiveInfo }).TotalSize
      = (({ Filename := "x.zip", ArchiveSize := 16, TotalSize := 2, TotalFiles := 1,
            Files := [{ FilePath := "a.pdf", Size := 2, MimeType := "application/pdf" }]
            : ArchiveInfo }).Files.map FileDetails.Size).sum ∧
    ({ Filename := "x.zip", ArchiveSize := 16, TotalSize := 2, TotalFiles := 1,
       Files := [{ FilePath := "a.pdf", Size := 2, MimeType := "application/pdf" }]
       : ArchiveInfo }).TotalFiles
      = ({ Filename := "x.zip", ArchiveSize := 16, TotalSize := 2, TotalFiles := 1,
           Files := [{ FilePath := "a.pdf", Size := 2, MimeType := "application/pdf" }]
           : ArchiveInfo }).Files.length :=
  C3_totals (encodeZip [{ name := "a.pdf", content := [7, 8] }]) "x.zip" _ rfl

/-- C4: for every filename, inspecting a zero-length byte sequence fails
with the empty-input kind (`ErrEmptyFile`), and building from an empty
record list fails with `ErrEmptyFilesList`. -/
theorem C4_empty_input :
    (∀ fn : String, GetArchiveInfo [] fn = .error .emptyFile) ∧
    CreateZipArchive [] = .error .emptyFilesList :=
  ⟨fun _ => rfl, rfl⟩

/-- C5: every non-empty byte sequence that does not parse as a container
makes `GetArchiveInfo` fail with the single structural failure kind
`ErrInvalidZip`; no inventory is returned. -/
theorem C5_corruption (content : List Nat) (fn : String)
    (hne : content ≠ []) (hdec : decodeZip content = none) :
    GetArchiveInfo content fn = .error .invalidZip ∧
    ∀ info, GetArchiveInfo content fn ≠ .ok info := by
  have hmain : GetArchiveInfo content fn = .error .invalidZip := by
    unfold GetArchiveInfo
    rw [if_neg (by simpa [List.length_eq_zero] using hne), hdec]
  exact ⟨hmain, fun info hok => by rw [hmain] at hok; exact Except.noConfusion hok⟩

/-- C5 witness: the single byte `[0]` is non-empty, fails to parse, and
is rejected as an invalid container. -/
theorem C5_witness :
    GetArchiveInfo [0] "x" = .error .invalidZip ∧
    ∀ info, GetArchiveInfo [0] "x" ≠ .ok info :=
  C5_corruption [0] "x" (by simp) rfl

/-- C6: the walk retains exactly the non-directory, validation-passing
entries (directory markers never become descriptors, a failing entry is
dropped and the walk continues, never aborts), and a parseable container
whose entries are all directory markers is rejected with `ErrEmptyFiles`
(the empty-inventory kind) rather than returning an empty inventory;
stated for a non-empty inspection filename. -/
theorem C6_inspector_skips :
    (∀ (entries : List ZipEntry) (info : ArchiveInfo),
      processZipFiles entries info
        = { info with Files := info.Files ++ entries.filterMap keepEntry }) ∧
    (∀ (content : List Nat) (fn : String) (entries : List ZipEntry),
      fn ≠ "" → decodeZip content = some entries →
      (∀ e ∈ entries, isDirName e.name = true) →
      GetArchiveInfo content fn = .error (.invalidArchiveInfo .emptyFiles)) := by
  constructor
  · exact fun entries info => processZipFiles_eq entries info
  · intro content fn entries hfn hdec hdirs
    have hfilter : entries.filterMap keepEntry = [] := by
      rw [List.filterMap_eq_nil_iff]
      intro e he
      rw [keepEntry_eq, if_pos (hdirs e he)]
    have hfiles : (inspectInfo content fn entries).Files = [] := by
      rw [inspectInfo_Files, hfilter]
    have h1 : ¬(inspectInfo content fn entries).Filename = "" := by
      rw [inspectInfo_Filename]
      exact hfn
    have h2 : ¬(inspectInfo content fn entries).ArchiveSize < 0 := by
      rw [inspectInfo_ArchiveSize]
      exact Int.not_lt.mpr (Int.natCast_nonneg _)
    have h3 : ¬(inspectInfo content fn entries).TotalSize < 0 := by
      rw [inspectInfo_TotalSize, hfiles]
      simp
    have h5 : (inspectInfo content fn entries).Files.length = 0 := by
      rw [hfiles]
      rfl
    have hval : (inspectInfo content fn entries).Validate = some .emptyFiles := by
      unfold ArchiveInfo.Validate
      rw [if_neg h1, if_neg h2, if_neg h3, if_neg (Nat.not_lt_zero _), if_pos h5]
    rw [GetArchiveInfo_of_decode content fn entries hdec, hval]

/-- C6 witness: a container holding only the directory marker `d/` is
rejected with the empty-inventory kind. -/
theorem C6_witness :
    GetArchiveInfo (encodeZip [{ name := "d/", content := [] }]) "x"
      = .error (.invalidArchiveInfo .emptyFiles) :=
  C6_inspector_skips.2 (encodeZip [{ name := "d/", content := [] }]) "x"
    [{ name := "d/", content := [] }] (by decide) rfl
    (by
      intro e he
      rw [List.mem_singleton] at he
      subst he
      rfl)

/-- C7: a record with empty contentType named `report.pdf` validates
successfully and gets the PDF content type written; a record named
`x.unknownext` with empty contentType fails with `ErrInvalidMimeType`
(the unresolvable-content-type kind). -/
theorem C7_content_type_derivation :
    FileData.Validate { Name := "report.pdf", Content := [1], MIMEType := "" }
      = (none, { Name := "report.pdf", Content := [1], MIMEType := "application/pdf" }) ∧
    (FileData.Validate { Name := "x.unknownext", Content := [1], MIMEType := "" }).1
      = some .invalidMimeType := ⟨rfl, rfl⟩

/-- C8: `FileData.Validate` never changes `Name` or `Content`; the only
field it can write is `MIMEType`, and it writes it only when `MIMEType`
was empty on entry and derivation from the name's extension succeeded
(in which case the call also succeeds). -/
theorem C8_validation_frame (f : FileData) :
    ((f.Validate).2.Name = f.Name) ∧ ((f.Validate).2.Content = f.Content) ∧
    ((f.Validate).2.MIMEType ≠ f.MIMEType →
      f.MIMEType = "" ∧ (f.Validate).1 = none ∧
      (f.Validate).2.MIMEType = typeByExtension (fpExt f.Name) ∧
      typeByExtension (fpExt f.Name) ≠ "") :=
  FileData.Validate_frame f

/-- C8 witness: frame facts at a concrete record whose contentType is
derived, exercising the write-only-when-empty implication. -/
theorem C8_witness :
    ((({ Name := "a.pdf", Content := [1], MIMEType := "" } : FileData).Validate).2.Name
        = "a.pdf") ∧
    ((({ Name := "a.pdf", Content := [1], MIMEType := "" } : FileData).Validate).1 = none) :=
  ⟨(C8_validation_frame _).1,
   ((C8_validation_frame { Name := "a.pdf", Content := [1], MIMEType := "" }).2.2
      (by decide)).2.1⟩

/-- C9: whenever `CreateZipArchive` returns bytes with no error, those
bytes are a fully finalized container: they are the encoding of the
written entries, they end with the end-of-central-directory trailer that
the closed writer appends, and they parse back.  (Closing a `zip.Writer`
over a `bytes.Buffer` cannot fail, as in the Go program.) -/
theorem C9_finalized (files : List FileData) (bs : List Nat)
    (h : CreateZipArchive files = .ok bs) :
    ∃ es, bs = encodeZip es ∧ decodeZip bs = some es ∧
      ∃ pre, bs = pre ++ endOfCentralDir := by
  unfold CreateZipArchive at h
  by_cases hc : files.length = 0
  · rw [if_pos hc] at h
    exact Except.noConfusion h
  · rw [if_neg hc] at h
    cases hvl : validateLoop files with
    | error p =>
      obtain ⟨n, e⟩ := p
      rw [hvl] at h
      exact Except.noConfusion h
    | ok files' =>
      simp only [hvl] at h
      cases hwl : writeLoop files' [] with
      | error n =>
        simp only [hwl] at h
        exact Except.noConfusion h
      | ok entries =>
        simp only [hwl, Except.ok.injEq] at h
        subst h
        exact ⟨entries, rfl, decodeZip_encodeZip entries,
          ⟨80 :: 75 :: entries.length :: encEntries entries, by simp [encodeZip]⟩⟩

/-- C9 witness: finalization facts for a concrete successful build. -/
theorem C9_witness :
    ∃ es, encodeZip [{ name := "b.png", content := [9] }] = encodeZip es ∧
      decodeZip (encodeZip [{ name := "b.png", content := [9] }]) = some es ∧
      ∃ pre, encodeZip [{ name := "b.png", content := [9] }] = pre ++ endOfCentralDir :=
  C9_finalized [{ Name := "b.png", Content := [9], MIMEType := "image/png" }] _ rfl

/-- C10 (implicit): inspecting any parseable container with an empty
filename fails with the empty-filename error, because
`ArchiveInfo.Validate` checks the filename first; stated with at least
one retained file entry as the claim does. -/
theorem C10_empty_filename (content : List Nat) (entries : List ZipEntry)
    (hdec : decodeZip content = some entries)
    (_hfile : ∃ e ∈ entries, keepEntry e ≠ none) :
    GetArchiveInfo content "" = .error (.invalidArchiveInfo .emptyFilename) := by
  have hval : (inspectInfo content "" entries).Validate = some .emptyFilename := by
    unfold ArchiveInfo.Validate
    rw [if_pos (inspectInfo_Filename content "" entries)]
  rw [GetArchiveInfo_of_decode content "" entries hdec, hval]

/-- C10 witness: a concrete container with one valid file entry,
inspected under the empty filename. -/
theorem C10_witness :
    GetArchiveInfo (encodeZip [{ name := "a.pdf", content := [1] }]) ""
      = .error (.invalidArchiveInfo .emptyFilename) :=
  C10_empty_filename _ [{ name := "a.pdf", content := [1] }] rfl
    ⟨{ name := "a.pdf", content := [1] }, List.mem_singleton.mpr rfl, by decide⟩
